import Mathlib

/-!
Shallow embedding of the boolean-filter engine in
`src/include/filter_parser_util.h` (the template class `SyntaxTree<T>`).
The label type parameter `T` is instantiated at `long long` and modelled
as `Int`; `std::vector<std::string>` becomes `List String`; both
`std::stack`s become `List`s whose head is the stack top.  Thrown
exceptions become `Except CompileErr` values.
-/

/-- Failure modes of the compilation pipeline.  `tokenIncorrect` and
`extraLabel` model the two `std::logic_error` throws of the source
(lines 141 and 252); `invalidArgument` and `outOfRange` model the
exceptions of `std::stoll` (line 223); `precedenceMissing` models the
`std::out_of_range` that `precedence.at` (line 166) would throw on a key
outside the three-entry map; `emptyStackTop` marks the undefined
behaviour of calling `top()` / `pop()` on an empty `std::stack` inside
`rpn2tree` (lines 229-247 perform no size check and throw nothing on
underflow). -/
inductive CompileErr where
  | tokenIncorrect
  | precedenceMissing
  | invalidArgument
  | outOfRange
  | emptyStackTop
  | extraLabel
  deriving DecidableEq, Repr

/-- AST node variants of the source (classes `OrNode`, `AndNode`,
`NotNode`, `LabelNode`, lines 22-112). -/
inductive Node where
  | OrNode : Node → Node → Node
  | AndNode : Node → Node → Node
  | NotNode : Node → Node
  | LabelNode : Int → Node
  deriving DecidableEq, Repr

/-- `Node::check` (virtual dispatch, lines 37-111).  The Or and And cases
mirror the short-circuiting if/else of the source; `LabelNode` mirrors
`std::find(labels->begin(), labels->end(), _label) != labels->end()`. -/
def Node.check : Node → List Int → Bool
  | .OrNode l r, labels => if l.check labels then true else r.check labels
  | .AndNode l r, labels => if !(l.check labels) then false else r.check labels
  | .NotNode s, labels => !(s.check labels)
  | .LabelNode v, labels => (labels.find? (fun x => x == v)).isSome

/-- Character loop of `parse_logic_expression` (lines 120-143), with the
`cur_token` accumulator threaded explicitly as a list of characters. -/
def tokChars : List Char → List String → List Char → Except CompileErr (List String × List Char)
  | [], tokens, cur => .ok (tokens, cur)
  | c :: cs, tokens, cur =>
    if c = ' ' ∨ c = '\t' then
      tokChars cs tokens cur
    else if c = '|' ∨ c = '&' ∨ c = '!' ∨ c = '(' ∨ c = ')' then
      tokChars cs ((if cur = [] then tokens else tokens ++ [String.mk cur]) ++ [String.mk [c]]) []
    else if '0' ≤ c ∧ c ≤ '9' then
      tokChars cs tokens (cur ++ [c])
    else
      .error .tokenIncorrect

/-- Final flush of `cur_token` after the loop (lines 145-148). -/
def finishTokens : List String × List Char → List String
  | (tokens, cur) => if cur = [] then tokens else tokens ++ [String.mk cur]

/-- `SyntaxTree::parse_logic_expression` (lines 115-151). -/
def parse_logic_expression (logic_expr : String) : Except CompileErr (List String) :=
  (tokChars logic_expr.data [] []).map finishTokens

/-- `SyntaxTree::is_operator` (lines 153-160): membership in the
five-key map. -/
def is_operator (token : String) : Bool :=
  token == "|" || token == "&" || token == "!" || token == "(" || token == ")"

/-- The three-key precedence map of line 164; `none` stands for a key on
which `precedence.at` would throw. -/
def precedence (op : String) : Option Nat :=
  if op = "|" then some 1
  else if op = "&" then some 2
  else if op = "!" then some 3
  else none

/-- `SyntaxTree::higher_precedence` (lines 162-167), including the
`std::out_of_range` behaviour of `precedence.at` on unknown keys. -/
def higher_precedence (op1 op2 : String) : Except CompileErr Bool :=
  match precedence op1, precedence op2 with
  | some p1, some p2 => .ok (decide (p1 ≥ p2))
  | _, _ => .error .precedenceMissing

/-- The while loop of the general-operator branch of `convert2rpn`
(lines 198-202): pop stack operators, stopping at a left parenthesis or
at an operator of lower precedence; the popped operators are returned in
pop order together with the remaining stack. -/
def popGreater (token : String) : List String → Except CompileErr (List String × List String)
  | [] => .ok ([], [])
  | top :: rest =>
    if top = "(" then .ok ([], top :: rest)
    else do
      let hp ← higher_precedence top token
      if hp then
        let (o, r) ← popGreater token rest
        pure (top :: o, r)
      else
        .ok ([], top :: rest)

/-- The while loop of the right-parenthesis branch (lines 186-190): pop
everything down to (but excluding) a left parenthesis, or the whole
stack if no left parenthesis is present. -/
def popUntilParen : List String → List String × List String
  | [] => ([], [])
  | top :: rest =>
    if top = "(" then ([], top :: rest)
    else
      let (o, r) := popUntilParen rest
      (top :: o, r)

/-- Discard of the matching left parenthesis, if present (lines 191-194). -/
def dropParen : List String → List String
  | [] => []
  | top :: rest => if top = "(" then rest else top :: rest

/-- Token loop of `convert2rpn` (lines 174-205); the state is the pair
(`rpn_expr`, `oper_stack`), stack head = stack top. -/
def convert2rpnAux : List String → List String → List String → Except CompileErr (List String × List String)
  | [], rpn_expr, oper_stack => .ok (rpn_expr, oper_stack)
  | token :: ts, rpn_expr, oper_stack =>
    if is_operator token = false then
      convert2rpnAux ts (rpn_expr ++ [token]) oper_stack
    else if token = "(" then
      convert2rpnAux ts rpn_expr (token :: oper_stack)
    else if token = ")" then
      let (o, r) := popUntilParen oper_stack
      convert2rpnAux ts (rpn_expr ++ o) (dropParen r)
    else do
      let (o, r) ← popGreater token oper_stack
      convert2rpnAux ts (rpn_expr ++ o) (token :: r)

/-- `SyntaxTree::convert2rpn` (lines 169-214); the trailing while loop
(lines 207-212) drains the remaining stack into the output in pop order,
which for a head-is-top list is plain list append. -/
def convert2rpn (oper_tokens : List String) : Except CompileErr (List String) :=
  (convert2rpnAux oper_tokens [] []).map (fun p => p.1 ++ p.2)

/-- Base-ten value of a digit string, most significant digit first. -/
def digitsVal (cs : List Char) : Nat :=
  cs.foldl (fun a c => a * 10 + (c.toNat - 48)) 0

/-- Upper bound of `long long`, the result type of `std::stoll`. -/
def LLONG_MAX : Nat := 9223372036854775807

/-- Models `std::stoll` (line 223) on the token shapes this pipeline can
feed it: every non-operator token the tokenizer emits is a nonempty run
of decimal digits, for which stoll returns the base-ten value, or throws
`std::out_of_range` when that value exceeds `long long`.  Any other
string is rejected the way stoll rejects a string without a numeric
prefix (`std::invalid_argument`).  The source then casts the value to
the label type `T` (here `long long` itself, so the cast is the
identity). -/
def stoll (s : String) : Except CompileErr Int :=
  if s.data ≠ [] ∧ ∀ c ∈ s.data, '0' ≤ c ∧ c ≤ '9' then
    if digitsVal s.data ≤ LLONG_MAX then .ok ((digitsVal s.data : Nat) : Int)
    else .error .outOfRange
  else .error .invalidArgument

/-- Token loop of `rpn2tree` (lines 219-249): a stack of constructed
nodes, head = top.  In the operator branches the source pops `res_nodes`
twice (or once for the unary fallback branch) with no size check; on a
too-small stack that is `std::stack::top` on an empty container —
undefined behaviour, modelled as `emptyStackTop`.  Note the fallback
`else` branch builds a `NotNode` for every operator token that is
neither `"|"` nor `"&"` — including parenthesis tokens that reach it. -/
def rpn2treeAux : List String → List Node → Except CompileErr (List Node)
  | [], res_nodes => .ok res_nodes
  | op :: ops, res_nodes =>
    if is_operator op = false then do
      let val ← stoll op
      rpn2treeAux ops (Node.LabelNode val :: res_nodes)
    else if op = "|" then
      match res_nodes with
      | rhs :: lhs :: rest => rpn2treeAux ops (Node.OrNode lhs rhs :: rest)
      | _ => .error .emptyStackTop
    else if op = "&" then
      match res_nodes with
      | rhs :: lhs :: rest => rpn2treeAux ops (Node.AndNode lhs rhs :: rest)
      | _ => .error .emptyStackTop
    else
      match res_nodes with
      | sub :: rest => rpn2treeAux ops (Node.NotNode sub :: rest)
      | _ => .error .emptyStackTop

/-- `SyntaxTree::rpn2tree` (lines 216-255): after the loop exactly one
node must remain; `res_nodes.size() != 1` throws the logic_error
"Extra label" (covering both the empty-stack and the more-than-one
case), otherwise the remaining node is returned as the root. -/
def rpn2tree (rpn : List String) : Except CompileErr Node := do
  let ns ← rpn2treeAux rpn []
  match ns with
  | [root] => .ok root
  | _ => .error .extraLabel

/-- The `SyntaxTree` constructor (lines 260-265): tokenize, convert to
RPN, build the tree; any thrown error aborts construction and no
predicate object is produced. -/
def compile (str_logic_expr : String) : Except CompileErr Node := do
  let tokens ← parse_logic_expression str_logic_expr
  let rpn ← convert2rpn tokens
  rpn2tree rpn

/-- Decidable equality for `Except`, used to evaluate the pipeline on
concrete inputs inside proofs. -/
instance exceptDecEq {ε α : Type} [DecidableEq ε] [DecidableEq α] : DecidableEq (Except ε α) := fun a b =>
  match a, b with
  | .error x, .error y =>
    if h : x = y then isTrue (by rw [h]) else isFalse (fun hh => h (Except.error.inj hh))
  | .error _, .ok _ => isFalse (fun hh => Except.noConfusion hh)
  | .ok _, .error _ => isFalse (fun hh => Except.noConfusion hh)
  | .ok x, .ok y =>
    if h : x = y then isTrue (by rw [h]) else isFalse (fun hh => h (Except.ok.inj hh))

/-!
Grammar of section 6 of the specification:
`expr := term ('|' term)*`, `term := factor ('&' factor)*`,
`factor := '!' factor | '(' expr ')' | LITERAL`, `LITERAL := digit+`,
with arbitrary spaces and tabs between tokens.  `G` is the shape of a
derivation; the mutually inductive predicates below say at which level a
shape is generable.  These definitions follow the spec's grammar (the
source does not parse through it); everything else above follows the
source.
-/

/-- Shapes of grammar derivations.  A literal stores its token string
(a nonempty digit run, enforced by the predicates below). -/
inductive G where
  | lit : String → G
  | not : G → G
  | paren : G → G
  | or : G → G → G
  | and : G → G → G
  deriving DecidableEq, Repr

/-- The token sequence a derivation produces, in source order. -/
def toTokens : G → List String
  | .lit s => [s]
  | .not f => "!" :: toTokens f
  | .paren e => "(" :: (toTokens e ++ [")"])
  | .or a b => toTokens a ++ "|" :: toTokens b
  | .and a b => toTokens a ++ "&" :: toTokens b

mutual

/-- Derivations of the nonterminal `factor`. -/
inductive GenF : G → Prop where
  | lit : ∀ {s : String}, s.data ≠ [] → (∀ c ∈ s.data, '0' ≤ c ∧ c ≤ '9') → GenF (.lit s)
  | not : ∀ {f : G}, GenF f → GenF (.not f)
  | paren : ∀ {e : G}, GenE e → GenF (.paren e)

/-- Derivations of the nonterminal `term`. -/
inductive GenT : G → Prop where
  | base : ∀ {g : G}, GenF g → GenT g
  | and : ∀ {a b : G}, GenT a → GenF b → GenT (.and a b)

/-- Derivations of the nonterminal `expr`. -/
inductive GenE : G → Prop where
  | base : ∀ {g : G}, GenT g → GenE g
  | or : ∀ {a b : G}, GenE a → GenT b → GenE (.or a b)

end

/-- Whether the derivation's root is a `!`. -/
def isNotG : G → Bool
  | .not _ => true
  | _ => false

/-- The side conditions under which the amended claim C3 holds: no `!`
applied directly to another `!`-factor, and every literal within the
range of `long long` (so that `std::stoll` does not throw). -/
def tame : G → Bool
  | .lit s => decide (digitsVal s.data ≤ LLONG_MAX)
  | .not f => tame f && !isNotG f
  | .paren e => tame e
  | .or a b => tame a && tame b
  | .and a b => tame a && tame b

/-- Shape-level well-formedness (only the literal conditions), implied
by generability at any level. -/
def shapeOK : G → Prop
  | .lit s => s.data ≠ [] ∧ ∀ c ∈ s.data, '0' ≤ c ∧ c ≤ '9'
  | .not f => shapeOK f
  | .paren e => shapeOK e
  | .or a b => shapeOK a ∧ shapeOK b
  | .and a b => shapeOK a ∧ shapeOK b

/-- The postfix (RPN) sequence for a derivation. -/
def rpnOf : G → List String
  | .lit s => [s]
  | .not f => rpnOf f ++ ["!"]
  | .paren e => rpnOf e
  | .or a b => rpnOf a ++ rpnOf b ++ ["|"]
  | .and a b => rpnOf a ++ rpnOf b ++ ["&"]

/-- The tree `rpn2tree` builds for a derivation. -/
def treeOf : G → Node
  | .lit s => .LabelNode ((digitsVal s.data : Nat) : Int)
  | .not f => .NotNode (treeOf f)
  | .paren e => treeOf e
  | .or a b => .OrNode (treeOf a) (treeOf b)
  | .and a b => .AndNode (treeOf a) (treeOf b)

/-- Operators a factor leaves pending on the operator stack after its
tokens are consumed. -/
def pendF : G → List String
  | .not _ => ["!"]
  | _ => []

/-- Operators a term leaves pending on the operator stack. -/
def pendT : G → List String
  | .and _ b => pendF b ++ ["&"]
  | g => pendF g

/-- Operators an expression leaves pending on the operator stack. -/
def pendE : G → List String
  | .or _ b => pendT b ++ ["|"]
  | g => pendT g

/-- Output emitted while a factor's tokens are consumed. -/
def outF : G → List String
  | .not f => rpnOf f
  | g => rpnOf g

/-- Output emitted while a term's tokens are consumed. -/
def outT : G → List String
  | .and a b => rpnOf a ++ outF b
  | g => outF g

/-- Output emitted while an expression's tokens are consumed. -/
def outE : G → List String
  | .or a b => rpnOf a ++ outT b
  | g => outT g

/-- Stack contexts in which an expression's conversion is compositional:
empty stack or a left parenthesis on top. -/
def exprCtx (st : List String) : Prop :=
  st = [] ∨ ∃ r, st = "(" :: r

/-- Stack contexts for a term: additionally a `|` on top. -/
def termCtx (st : List String) : Prop :=
  exprCtx st ∨ ∃ r, st = "|" :: r

/-- Stack contexts for a factor: additionally a `&` on top. -/
def factorCtx (st : List String) : Prop :=
  termCtx st ∨ ∃ r, st = "&" :: r

/-- Total version of `higher_precedence`, agreeing with it whenever both
arguments are in the precedence map (the only situation `convert2rpn`
can produce). -/
def hpB (op1 op2 : String) : Bool :=
  decide ((precedence op1).getD 0 ≥ (precedence op2).getD 0)

/-- Total version of the pop-while-greater loop. -/
def popOps (token : String) : List String → List String × List String
  | [] => ([], [])
  | top :: rest =>
    if top = "(" then ([], top :: rest)
    else if hpB top token then
      let (o, r) := popOps token rest
      (top :: o, r)
    else ([], top :: rest)

/-- Total version of one step of the converter loop. -/
def convStep (token : String) (out st : List String) : List String × List String :=
  if is_operator token = false then (out ++ [token], st)
  else if token = "(" then (out, token :: st)
  else if token = ")" then
    let (o, r) := popUntilParen st
    (out ++ o, dropParen r)
  else
    let (o, r) := popOps token st
    (out ++ o, token :: r)

/-- Total version of the converter loop over a token list. -/
def convRun : List String → List String → List String → List String × List String
  | [], out, st => (out, st)
  | t :: ts, out, st => convRun ts (convStep t out st).1 (convStep t out st).2

/-- Stacks whose entries are among the four strings `convert2rpn` ever
pushes; on such stacks the precedence lookups cannot fail. -/
def stackOK (st : List String) : Prop :=
  ∀ x ∈ st, x = "(" ∨ x = "|" ∨ x = "&" ∨ x = "!"

/-- Concatenation of the character data of a token list. -/
def concatData : List String → List Char
  | [] => []
  | t :: ts => t.data ++ concatData ts

/-- The canonical (whitespace-free) string of a derivation. -/
def strOf (g : G) : String := String.mk (concatData (toTokens g))

/-- A character list spelling a token list with arbitrary spaces and
tabs inserted between (and around) tokens. -/
inductive Spaced : List String → List Char → Prop where
  | nil : Spaced [] []
  | ws : ∀ {c ts cs}, (c = ' ' ∨ c = '\t') → Spaced ts cs → Spaced ts (c :: cs)
  | tok : ∀ {t ts cs}, Spaced ts cs → Spaced (t :: ts) (t.data ++ cs)

/-- A token is one of the five operator / parenthesis strings. -/
def isOpTok (t : String) : Prop :=
  t = "|" ∨ t = "&" ∨ t = "!" ∨ t = "(" ∨ t = ")"

/-- A token is a nonempty run of decimal digits. -/
def isLitTok (t : String) : Prop :=
  t.data ≠ [] ∧ ∀ c ∈ t.data, '0' ≤ c ∧ c ≤ '9'

/-- Token lists the tokenizer reproduces exactly: every token an
operator or a digit run, and a digit run is either the last token or
immediately followed by an operator token (so that adjacent runs never
merge). -/
inductive GoodToks : List String → Prop where
  | nil : GoodToks []
  | op : ∀ {t ts}, isOpTok t → GoodToks ts → GoodToks (t :: ts)
  | lit : ∀ {s : String}, isLitTok s → GoodToks [s]
  | litop : ∀ {s : String} {t ts}, isLitTok s → isOpTok t → GoodToks (t :: ts) →
      GoodToks (s :: t :: ts)

/-- No two adjacent tokens are both digit runs. -/
def noAdjLit (ts : List String) : Prop :=
  List.Chain' (fun a b => ¬(isLitTok a ∧ isLitTok b)) ts

/-- Either the list is empty or its last element is an operator token. -/
def opLast (ts : List String) : Prop :=
  ∀ t, ts.getLast? = some t → isOpTok t

/-- The restricted input alphabet of claim C10. -/
def allowedChar (c : Char) : Prop :=
  c = ' ' ∨ c = '\t' ∨ c = '|' ∨ c = '&' ∨ c = '!' ∨ c = '(' ∨ c = ')' ∨ ('0' ≤ c ∧ c ≤ '9')

instance (c : Char) : Decidable (allowedChar c) := by
  unfold allowedChar
  infer_instance

/-! Theorems. -/

theorem GenF_lit_inv {s : String} (h : GenF (.lit s)) :
    s.data ≠ [] ∧ ∀ c ∈ s.data, '0' ≤ c ∧ c ≤ '9' := by
  cases h with
  | lit h1 h2 => exact ⟨h1, h2⟩

theorem GenF_not_inv {f : G} (h : GenF (.not f)) : GenF f := by
  cases h with
  | not h => exact h

theorem GenF_paren_inv {e : G} (h : GenF (.paren e)) : GenE e := by
  cases h with
  | paren h => exact h

theorem GenF_or_inv {a b : G} (h : GenF (.or a b)) : False := by cases h

theorem GenF_and_inv {a b : G} (h : GenF (.and a b)) : False := by cases h

theorem GenT_and_inv {a b : G} (h : GenT (.and a b)) : GenT a ∧ GenF b := by
  cases h with
  | base h => exact (GenF_and_inv h).elim
  | and h1 h2 => exact ⟨h1, h2⟩

theorem GenT_or_inv {a b : G} (h : GenT (.or a b)) : False := by
  cases h with
  | base h => exact GenF_or_inv h

theorem GenT_not_inv {f : G} (h : GenT (.not f)) : GenF f := by
  cases h with
  | base h => exact GenF_not_inv h

theorem GenT_paren_inv {e : G} (h : GenT (.paren e)) : GenE e := by
  cases h with
  | base h => exact GenF_paren_inv h

theorem GenT_lit_inv {s : String} (h : GenT (.lit s)) :
    s.data ≠ [] ∧ ∀ c ∈ s.data, '0' ≤ c ∧ c ≤ '9' := by
  cases h with
  | base h => exact GenF_lit_inv h

theorem GenE_or_inv {a b : G} (h : GenE (.or a b)) : GenE a ∧ GenT b := by
  cases h with
  | base h => exact (GenT_or_inv h).elim
  | or h1 h2 => exact ⟨h1, h2⟩

theorem GenE_and_inv {a b : G} (h : GenE (.and a b)) : GenT a ∧ GenF b := by
  cases h with
  | base h => exact GenT_and_inv h

theorem GenE_not_inv {f : G} (h : GenE (.not f)) : GenF f := by
  cases h with
  | base h => exact GenT_not_inv h

theorem GenE_paren_inv {e : G} (h : GenE (.paren e)) : GenE e := by
  cases h with
  | base h => exact GenT_paren_inv h

theorem GenE_lit_inv {s : String} (h : GenE (.lit s)) :
    s.data ≠ [] ∧ ∀ c ∈ s.data, '0' ≤ c ∧ c ≤ '9' := by
  cases h with
  | base h => exact GenT_lit_inv h

/-- Generability at any level implies the literal-shape conditions. -/
theorem shape_of_gen (g : G) :
    (GenF g → shapeOK g) ∧ (GenT g → shapeOK g) ∧ (GenE g → shapeOK g) := by
  induction g with
  | lit s =>
    exact ⟨fun h => GenF_lit_inv h, fun h => GenT_lit_inv h, fun h => GenE_lit_inv h⟩
  | not f ih =>
    exact ⟨fun h => ih.1 (GenF_not_inv h), fun h => ih.1 (GenT_not_inv h),
           fun h => ih.1 (GenE_not_inv h)⟩
  | paren e ih =>
    exact ⟨fun h => ih.2.2 (GenF_paren_inv h), fun h => ih.2.2 (GenT_paren_inv h),
           fun h => ih.2.2 (GenE_paren_inv h)⟩
  | or a b iha ihb =>
    refine ⟨fun h => (GenF_or_inv h).elim, fun h => (GenT_or_inv h).elim, fun h => ?_⟩
    obtain ⟨h1, h2⟩ := GenE_or_inv h
    exact ⟨iha.2.2 h1, ihb.2.1 h2⟩
  | and a b iha ihb =>
    refine ⟨fun h => (GenF_and_inv h).elim, fun h => ?_, fun h => ?_⟩
    · obtain ⟨h1, h2⟩ := GenT_and_inv h
      exact ⟨iha.2.1 h1, ihb.1 h2⟩
    · obtain ⟨h1, h2⟩ := GenE_and_inv h
      exact ⟨iha.2.1 h1, ihb.1 h2⟩

theorem pendF_mem (g : G) : ∀ x ∈ pendF g, x = "!" := by
  cases g <;> simp [pendF]

theorem pendT_mem (g : G) : ∀ x ∈ pendT g, x = "!" ∨ x = "&" := by
  cases g with
  | and a b =>
    intro x hx
    simp only [pendT, List.mem_append, List.mem_singleton] at hx
    rcases hx with hx | hx
    · exact Or.inl (pendF_mem b x hx)
    · exact Or.inr hx
  | lit s => intro x hx; simp only [pendT] at hx; exact Or.inl (pendF_mem _ x hx)
  | not f => intro x hx; simp only [pendT] at hx; exact Or.inl (pendF_mem _ x hx)
  | paren e => intro x hx; simp only [pendT] at hx; exact Or.inl (pendF_mem _ x hx)
  | or a b => intro x hx; simp only [pendT] at hx; exact Or.inl (pendF_mem _ x hx)

theorem pendE_mem (g : G) : ∀ x ∈ pendE g, x = "!" ∨ x = "&" ∨ x = "|" := by
  cases g with
  | or a b =>
    intro x hx
    simp only [pendE, List.mem_append, List.mem_singleton] at hx
    rcases hx with hx | hx
    · rcases pendT_mem b x hx with h | h
      · exact Or.inl h
      · exact Or.inr (Or.inl h)
    · exact Or.inr (Or.inr hx)
  | lit s =>
    intro x hx
    simp only [pendE] at hx
    rcases pendT_mem _ x hx with h | h
    · exact Or.inl h
    · exact Or.inr (Or.inl h)
  | not f =>
    intro x hx
    simp only [pendE] at hx
    rcases pendT_mem _ x hx with h | h
    · exact Or.inl h
    · exact Or.inr (Or.inl h)
  | paren e =>
    intro x hx
    simp only [pendE] at hx
    rcases pendT_mem _ x hx with h | h
    · exact Or.inl h
    · exact Or.inr (Or.inl h)
  | and a b =>
    intro x hx
    simp only [pendE] at hx
    rcases pendT_mem _ x hx with h | h
    · exact Or.inl h
    · exact Or.inr (Or.inl h)

theorem outF_pendF (g : G) : outF g ++ pendF g = rpnOf g := by
  cases g <;> simp [outF, pendF, rpnOf]

theorem outT_pendT (g : G) : outT g ++ pendT g = rpnOf g := by
  cases g with
  | and a b =>
    show (rpnOf a ++ outF b) ++ (pendF b ++ ["&"]) = rpnOf a ++ rpnOf b ++ ["&"]
    rw [← outF_pendF b]
    simp [List.append_assoc]
  | lit s => simp only [outT, pendT]; exact outF_pendF _
  | not f => simp only [outT, pendT]; exact outF_pendF _
  | paren e => simp only [outT, pendT]; exact outF_pendF _
  | or a b => simp only [outT, pendT]; exact outF_pendF _

theorem outE_pendE (g : G) : outE g ++ pendE g = rpnOf g := by
  cases g with
  | or a b =>
    show (rpnOf a ++ outT b) ++ (pendT b ++ ["|"]) = rpnOf a ++ rpnOf b ++ ["|"]
    rw [← outT_pendT b]
    simp [List.append_assoc]
  | lit s => simp only [outE, pendE]; exact outT_pendT _
  | not f => simp only [outE, pendE]; exact outT_pendT _
  | paren e => simp only [outE, pendE]; exact outT_pendT _
  | and a b => simp only [outE, pendE]; exact outT_pendT _

/-- A nonempty digit run is not one of the operator strings. -/
theorem digit_not_operator {s : String} (h2 : ∀ c ∈ s.data, '0' ≤ c ∧ c ≤ '9') :
    is_operator s = false := by
  cases hbool : is_operator s with
  | false => rfl
  | true =>
    exfalso
    have hop : s = "|" ∨ s = "&" ∨ s = "!" ∨ s = "(" ∨ s = ")" := by
      simpa [is_operator, or_assoc] using hbool
    rcases hop with h | h | h | h | h <;> subst h <;> exact absurd h2 (by decide)

theorem operator_isOpTok {t : String} (h : is_operator t = true) : isOpTok t := by
  simpa [is_operator, isOpTok, or_assoc] using h

theorem isOpTok_operator {t : String} (h : isOpTok t) : is_operator t = true := by
  rcases h with h | h | h | h | h <;> subst h <;> decide

theorem popOps_eq (token : String) (p st : List String)
    (hp : ∀ x ∈ p, x ≠ "(" ∧ hpB x token = true)
    (hstop : st = [] ∨ ∃ x r, st = x :: r ∧ (x = "(" ∨ hpB x token = false)) :
    popOps token (p ++ st) = (p, st) := by
  induction p with
  | nil =>
    rcases hstop with h | ⟨x, r, h, hx⟩
    · subst h; rfl
    · subst h
      by_cases hpar : x = "("
      · subst hpar; simp [popOps]
      · rcases hx with hx | hx
        · exact absurd hx hpar
        · simp [popOps, hpar, hx]
  | cons a p ih =>
    have ha := hp a (by simp)
    have hrest : ∀ x ∈ p, x ≠ "(" ∧ hpB x token = true := fun x hx => hp x (by simp [hx])
    simp [popOps, ha.1, ha.2, ih hrest]

theorem popUntilParen_eq (p st : List String)
    (hp : ∀ x ∈ p, x ≠ "(")
    (hstop : st = [] ∨ ∃ r, st = "(" :: r) :
    popUntilParen (p ++ st) = (p, st) := by
  induction p with
  | nil =>
    rcases hstop with h | ⟨r, h⟩ <;> subst h <;> simp [popUntilParen]
  | cons a p ih =>
    have ha := hp a (by simp)
    simp [popUntilParen, ha, ih (fun x hx => hp x (by simp [hx]))]

theorem convRun_append (a b out st : List String) :
    convRun (a ++ b) out st = convRun b (convRun a out st).1 (convRun a out st).2 := by
  induction a generalizing out st with
  | nil => rfl
  | cons t ts ih => simp [convRun, ih]

theorem popOps_rest_subset (token : String) (st : List String) :
    ∀ x ∈ (popOps token st).2, x ∈ st := by
  induction st with
  | nil => simp [popOps]
  | cons top rest ih =>
    by_cases hpar : top = "("
    · subst hpar; simp [popOps]
    · by_cases hge : hpB top token = true
      · intro x hx
        simp only [popOps, if_neg hpar, if_pos hge] at hx
        exact List.mem_cons_of_mem _ (ih x hx)
      · intro x hx
        simp only [popOps, if_neg hpar, if_neg hge] at hx
        exact hx

theorem popUntilParen_rest_subset (st : List String) :
    ∀ x ∈ (popUntilParen st).2, x ∈ st := by
  induction st with
  | nil => simp [popUntilParen]
  | cons top rest ih =>
    by_cases hpar : top = "("
    · subst hpar; simp [popUntilParen]
    · intro x hx
      simp only [popUntilParen, if_neg hpar] at hx
      exact List.mem_cons_of_mem _ (ih x hx)

theorem dropParen_subset (st : List String) : ∀ x ∈ dropParen st, x ∈ st := by
  cases st with
  | nil => simp [dropParen]
  | cons top rest =>
    by_cases hpar : top = "("
    · subst hpar
      intro x hx
      simp only [dropParen, if_pos rfl] at hx
      exact List.mem_cons_of_mem _ hx
    · intro x hx
      simpa only [dropParen, if_neg hpar] using hx

theorem popGreater_eq (token : String) (htok : token = "|" ∨ token = "&" ∨ token = "!")
    (st : List String) (h : stackOK st) :
    popGreater token st = .ok (popOps token st) := by
  induction st with
  | nil => rfl
  | cons top rest ih =>
    have htop := h top (by simp)
    have hrest : stackOK rest := fun x hx => h x (by simp [hx])
    by_cases hpar : top = "("
    · subst hpar; simp [popGreater, popOps]
    · obtain ⟨p1, hp1⟩ : ∃ p1, precedence top = some p1 := by
        rcases htop with h1 | h1 | h1 | h1 <;> subst h1
        · exact absurd rfl hpar
        · exact ⟨1, rfl⟩
        · exact ⟨2, rfl⟩
        · exact ⟨3, rfl⟩
      obtain ⟨p2, hp2⟩ : ∃ p2, precedence token = some p2 := by
        rcases htok with h1 | h1 | h1 <;> subst h1
        · exact ⟨1, rfl⟩
        · exact ⟨2, rfl⟩
        · exact ⟨3, rfl⟩
      have hhp : higher_precedence top token = .ok (hpB top token) := by
        simp [higher_precedence, hpB, hp1, hp2]
      by_cases hge : hpB top token = true
      · simp only [popGreater, if_neg hpar, hhp, hge, ih hrest]
        simp [popOps, hpar, hge]
        rfl
      · simp only [popGreater, if_neg hpar, hhp]
        simp [popOps, hpar, hge]
        rfl

theorem convert2rpnAux_eq (ts : List String) :
    ∀ out st, stackOK st → convert2rpnAux ts out st = .ok (convRun ts out st) := by
  induction ts with
  | nil => intro out st _; rfl
  | cons t ts ih =>
    intro out st h
    by_cases hop : is_operator t = false
    · simp [convert2rpnAux, convRun, convStep, hop]
      exact ih _ _ h
    · have hop' : is_operator t = true := by
        cases hb : is_operator t
        · exact absurd hb hop
        · rfl
      by_cases hl : t = "("
      · subst hl
        have h' : stackOK ("(" :: st) := by
          intro x hx
          rcases List.mem_cons.mp hx with hx | hx
          · subst hx; exact Or.inl rfl
          · exact h x hx
        simp [convert2rpnAux, convRun, convStep, hop']
        exact ih _ _ h'
      · by_cases hr : t = ")"
        · subst hr
          rcases hpu : popUntilParen st with ⟨o, r⟩
          have hsub : ∀ x ∈ dropParen r, x ∈ st := by
            intro x hx
            have h1 : x ∈ r := dropParen_subset r x hx
            have h2 : x ∈ (popUntilParen st).2 := by rw [hpu]; exact h1
            exact popUntilParen_rest_subset st x h2
          have h' : stackOK (dropParen r) := fun x hx => h x (hsub x hx)
          simp [convert2rpnAux, convRun, convStep, hop', hl, hpu]
          exact ih _ _ h'
        · have htok : t = "|" ∨ t = "&" ∨ t = "!" := by
            rcases operator_isOpTok hop' with h1 | h1 | h1 | h1 | h1
            · exact Or.inl h1
            · exact Or.inr (Or.inl h1)
            · exact Or.inr (Or.inr h1)
            · exact absurd h1 hl
            · exact absurd h1 hr
          rcases hpp : popOps t st with ⟨o, r⟩
          have h2 : stackOK (t :: r) := by
            intro x hx
            rcases List.mem_cons.mp hx with hx | hx
            · subst hx
              rcases htok with h1 | h1 | h1 <;> subst h1 <;> decide
            · have hxr : x ∈ (popOps t st).2 := by rw [hpp]; exact hx
              exact h x (popOps_rest_subset t st x hxr)
          simp [convert2rpnAux, convRun, convStep, hop', hl, hr,
                popGreater_eq t htok st h, hpp, Except.bind]
          exact ih _ _ h2

theorem convert2rpn_eq (ts : List String) :
    convert2rpn ts = .ok ((convRun ts [] []).1 ++ (convRun ts [] []).2) := by
  have h0 : stackOK ([] : List String) := by intro x hx; cases hx
  simp [convert2rpn, convert2rpnAux_eq ts [] [] h0, Except.map]

/-- On a string of only spaces and tabs the tokenizer loop does nothing:
every character is skipped and the state is returned unchanged. -/
theorem tokChars_ws (cs : List Char) (h : ∀ c ∈ cs, c = ' ' ∨ c = '\t') :
    ∀ tokens cur, tokChars cs tokens cur = .ok (tokens, cur) := by
  induction cs with
  | nil => intro tokens cur; rfl
  | cons c cs ih =>
    intro tokens cur
    have hc : c = ' ' ∨ c = '\t' := h c (by simp)
    have ht : ∀ x ∈ cs, x = ' ' ∨ x = '\t' := fun x hx => h x (by simp [hx])
    simp only [tokChars, if_pos hc]
    exact ih ht tokens cur

/-- C1: operator precedence — `&` binds tighter than `|`; compiling
`"1|2&3"` yields the tree `1|(2&3)`, whose check is true on the label
collection `[2,3]` (via the AND term) and false on `[2]`. -/
theorem c1_operator_precedence :
    compile "1|2&3" =
      .ok (Node.OrNode (Node.LabelNode 1) (Node.AndNode (Node.LabelNode 2) (Node.LabelNode 3)))
    ∧ (compile "1|2&3").map (fun t => t.check [2, 3]) = .ok true
    ∧ (compile "1|2&3").map (fun t => t.check [2]) = .ok false := by
  refine ⟨by decide, by decide, by decide⟩

/-- C2: a `LabelNode` leaf with value `v` checks true against a label
collection exactly when `v` is a member of the collection; duplicates
and ordering are irrelevant because only membership is tested. -/
theorem c2_label_check_iff_mem (v : Int) (labels : List Int) :
    Node.check (Node.LabelNode v) labels = true ↔ v ∈ labels := by
  simp [Node.check, List.find?_isSome]

/-- C4: on input `"&1"` the postfix sequence is `["1","&"]`; when the
`"&"` is processed the node stack holds a single node, and the source
pops it and then calls `top()` on the now-empty stack — undefined
behaviour (`emptyStackTop` in this model), not a thrown StackUnderflow
error. -/
theorem c4_underflow_is_ub : compile "&1" = .error CompileErr.emptyStackTop := by decide

/-- C5: an expression of only whitespace (in particular the empty
string) produces no tokens, the postfix sequence is empty, no node is
ever pushed, and the final one-node check of `rpn2tree` throws the
logic_error "Extra label" — construction is explicitly rejected and no
tree is produced. -/
theorem c5_empty_rejected (s : String) (h : ∀ c ∈ s.data, c = ' ' ∨ c = '\t') :
    compile s = .error CompileErr.extraLabel := by
  unfold compile parse_logic_expression
  rw [tokChars_ws s.data h]
  rfl

/-- Witness for C5 at the empty string and at a whitespace-only string. -/
theorem c5_witness :
    compile "" = Except.error CompileErr.extraLabel
    ∧ compile " \t " = Except.error CompileErr.extraLabel :=
  ⟨c5_empty_rejected "" (by decide), c5_empty_rejected " \t " (by decide)⟩

/-- C7: a closing parenthesis with no matching opening parenthesis is
tolerated silently — on `["1", ")"]` the converter pops until the stack
is exhausted and continues, so `"1)"` compiles successfully into the
leaf `Label(1)`. -/
theorem c7_unmatched_close_paren :
    convert2rpn ["1", ")"] = .ok ["1"] ∧ compile "1)" = .ok (Node.LabelNode 1) := by
  refine ⟨by decide, by decide⟩

/-- C8 counterexample: `"!!1"` does not compile at all.  The converter
pops on equal precedence, so the second `"!"` pops the first into the
output, producing the postfix `["!","1","!"]`; building it pops an empty
node stack (undefined behaviour in the source).  In particular its
result differs from compiling `"1"`. -/
theorem c8_counterexample :
    compile "!!1" = .error CompileErr.emptyStackTop
    ∧ (compile "!!1").map (fun t => t.check []) ≠ (compile "1").map (fun t => t.check []) := by
  refine ⟨by decide, by decide⟩

/-- C8 amended: ties pop, so `!` is effectively left-associative — the
converter turns `["!","!","1"]` into `["!","1","!"]`, whose tree
construction fails by popping an empty node stack, so `"!!1"` does not
compile; the explicitly parenthesized `"!(!1)"` does compile and for
every label collection evaluates the same as `"1"`. -/
theorem c8_amended :
    convert2rpn ["!", "!", "1"] = .ok ["!", "1", "!"]
    ∧ compile "!!1" = .error CompileErr.emptyStackTop
    ∧ ∀ L : List Int, (compile "!(!1)").map (fun t => t.check L) = (compile "1").map (fun t => t.check L) := by
  refine ⟨by decide, by decide, fun L => ?_⟩
  show (Except.ok (Node.NotNode (Node.NotNode (Node.LabelNode 1)))).map (fun t => t.check L)
     = (Except.ok (Node.LabelNode 1)).map (fun t => t.check L)
  simp [Node.check, Except.map]

/-- C9: a stray opening parenthesis left on the operator stack is
drained into the postfix output (`"(1"` becomes `["1","("]`) and the
tree builder's fallback branch — the same one that handles `"!"` —
wraps the operand in a `NotNode`, so `"(1"` compiles into `Not(Label 1)`
and checks false against `[1]` instead of failing at construction. -/
theorem c9_stray_open_paren :
    compile "(1" = .ok (Node.NotNode (Node.LabelNode 1))
    ∧ (compile "(1").map (fun t => t.check [1]) = .ok false := by
  refine ⟨by decide, by decide⟩

theorem tame_lit {s : String} (h : tame (G.lit s) = true) : digitsVal s.data ≤ LLONG_MAX := by
  simpa [tame] using h

theorem tame_not {f : G} (h : tame (G.not f) = true) : tame f = true ∧ isNotG f = false := by
  have h' := h
  simp [tame, Bool.and_eq_true, Bool.not_eq_true'] at h'
  exact h'

theorem tame_paren {e : G} (h : tame (G.paren e) = true) : tame e = true := by
  simpa [tame] using h

theorem tame_or {a b : G} (h : tame (G.or a b) = true) : tame a = true ∧ tame b = true := by
  have h' := h
  simp [tame, Bool.and_eq_true] at h'
  exact h'

theorem tame_and {a b : G} (h : tame (G.and a b) = true) : tame a = true ∧ tame b = true := by
  have h' := h
  simp [tame, Bool.and_eq_true] at h'
  exact h'

theorem pendF_nil {g : G} (h : isNotG g = false) : pendF g = [] := by
  cases g with
  | not f => simp [isNotG] at h
  | lit s => rfl
  | paren e => rfl
  | or a b => rfl
  | and a b => rfl

theorem GenT_base_of {g : G} (h : GenT g) (hne : ∀ x y, g ≠ G.and x y) : GenF g := by
  cases h with
  | base h => exact h
  | and h1 h2 => exact absurd rfl (hne _ _)

theorem GenE_base_of {g : G} (h : GenE g) (hne : ∀ x y, g ≠ G.or x y) : GenT g := by
  cases h with
  | base h => exact h
  | or h1 h2 => exact absurd rfl (hne _ _)

theorem exprCtx_stop (token : String) (st : List String) (h : exprCtx st) :
    st = [] ∨ ∃ x r, st = x :: r ∧ (x = "(" ∨ hpB x token = false) := by
  rcases h with h | ⟨r, h⟩
  · exact Or.inl h
  · exact Or.inr ⟨"(", r, h, Or.inl rfl⟩

theorem termCtx_stop_amp (st : List String) (h : termCtx st) :
    st = [] ∨ ∃ x r, st = x :: r ∧ (x = "(" ∨ hpB x "&" = false) := by
  rcases h with h | ⟨r, h⟩
  · exact exprCtx_stop "&" st h
  · exact Or.inr ⟨"|", r, h, Or.inr (by decide)⟩

theorem factorCtx_stop_bang (st : List String) (h : factorCtx st) :
    st = [] ∨ ∃ x r, st = x :: r ∧ (x = "(" ∨ hpB x "!" = false) := by
  rcases h with (h | ⟨r, h⟩) | ⟨r, h⟩
  · exact exprCtx_stop "!" st h
  · exact Or.inr ⟨"|", r, h, Or.inr (by decide)⟩
  · exact Or.inr ⟨"&", r, h, Or.inr (by decide)⟩

theorem popOps_pendE (a : G) (st : List String) (h : exprCtx st) :
    popOps "|" (pendE a ++ st) = (pendE a, st) :=
  popOps_eq "|" (pendE a) st
    (fun x hx => by
      rcases pendE_mem a x hx with h1 | h1 | h1 <;> subst h1 <;> exact ⟨by decide, by decide⟩)
    (exprCtx_stop "|" st h)

theorem popOps_pendT (a : G) (st : List String) (h : termCtx st) :
    popOps "&" (pendT a ++ st) = (pendT a, st) :=
  popOps_eq "&" (pendT a) st
    (fun x hx => by
      rcases pendT_mem a x hx with h1 | h1 <;> subst h1 <;> exact ⟨by decide, by decide⟩)
    (termCtx_stop_amp st h)

theorem popOps_bang (st : List String) (h : factorCtx st) :
    popOps "!" st = ([], st) := by
  have h0 := popOps_eq "!" [] st (by simp) (factorCtx_stop_bang st h)
  simpa using h0

theorem popUntilParen_pendE (e : G) (st : List String) :
    popUntilParen (pendE e ++ "(" :: st) = (pendE e, "(" :: st) :=
  popUntilParen_eq (pendE e) ("(" :: st)
    (fun x hx => by rcases pendE_mem e x hx with h1 | h1 | h1 <;> subst h1 <;> decide)
    (Or.inr ⟨st, rfl⟩)

theorem convStep_open (out st : List String) : convStep "(" out st = (out, "(" :: st) := rfl

theorem convStep_bang (out st : List String) (h : factorCtx st) :
    convStep "!" out st = (out, "!" :: st) := by
  have h1 : is_operator "!" = true := by decide
  have h2 : ("!" : String) ≠ "(" := by decide
  have h3 : ("!" : String) ≠ ")" := by decide
  simp [convStep, h1, h2, h3, popOps_bang st h]

theorem convStep_close (e : G) (out st : List String) :
    convStep ")" out (pendE e ++ "(" :: st) = (out ++ pendE e, st) := by
  have h1 : is_operator ")" = true := by decide
  have h2 : (")" : String) ≠ "(" := by decide
  simp [convStep, h1, h2, popUntilParen_pendE e st, dropParen]

theorem convStep_bar (a : G) (out st : List String) (h : exprCtx st) :
    convStep "|" out (pendE a ++ st) = (out ++ pendE a, "|" :: st) := by
  have h1 : is_operator "|" = true := by decide
  have h2 : ("|" : String) ≠ "(" := by decide
  have h3 : ("|" : String) ≠ ")" := by decide
  simp [convStep, h1, h2, h3, popOps_pendE a st h]

theorem convStep_amp (a : G) (out st : List String) (h : termCtx st) :
    convStep "&" out (pendT a ++ st) = (out ++ pendT a, "&" :: st) := by
  have h1 : is_operator "&" = true := by decide
  have h2 : ("&" : String) ≠ "(" := by decide
  have h3 : ("&" : String) ≠ ")" := by decide
  simp [convStep, h1, h2, h3, popOps_pendT a st h]

/-- Compositional behaviour of the shunting-yard loop on grammar
derivations: consuming the tokens of a factor / term / expression from a
suitable stack context appends its output to `rpn_expr` and leaves its
pending operators on top of the untouched context stack.  The first
conjunct (factors that are not a `!`) holds for arbitrary stacks. -/
theorem conv_spec (g : G) :
    ((GenF g ∧ isNotG g = false ∧ tame g = true) → ∀ out st,
        convRun (toTokens g) out st = (out ++ outF g, pendF g ++ st))
  ∧ ((GenF g ∧ tame g = true) → ∀ out st, factorCtx st →
        convRun (toTokens g) out st = (out ++ outF g, pendF g ++ st))
  ∧ ((GenT g ∧ tame g = true) → ∀ out st, termCtx st →
        convRun (toTokens g) out st = (out ++ outT g, pendT g ++ st))
  ∧ ((GenE g ∧ tame g = true) → ∀ out st, exprCtx st →
        convRun (toTokens g) out st = (out ++ outE g, pendE g ++ st)) := by
  induction g with
  | lit s =>
    have key : (∀ c ∈ s.data, '0' ≤ c ∧ c ≤ '9') → ∀ out st : List String,
        convRun (toTokens (G.lit s)) out st = (out ++ [s], st) := by
      intro hs out st
      have hnop := digit_not_operator hs
      simp [toTokens, convRun, convStep, hnop]
    refine ⟨?_, ?_, ?_, ?_⟩
    · rintro ⟨hg, -, -⟩ out st
      rw [key (GenF_lit_inv hg).2]
      simp [outF, pendF, rpnOf]
    · rintro ⟨hg, -⟩ out st -
      rw [key (GenF_lit_inv hg).2]
      simp [outF, pendF, rpnOf]
    · rintro ⟨hg, -⟩ out st -
      rw [key (GenT_lit_inv hg).2]
      simp [outT, outF, pendT, pendF, rpnOf]
    · rintro ⟨hg, -⟩ out st -
      rw [key (GenE_lit_inv hg).2]
      simp [outE, outT, outF, pendE, pendT, pendF, rpnOf]
  | not f ih =>
    have part2 : (GenF (G.not f) ∧ tame (G.not f) = true) → ∀ out st, factorCtx st →
        convRun (toTokens (G.not f)) out st = (out ++ outF (G.not f), pendF (G.not f) ++ st) := by
      rintro ⟨hg, hta⟩ out st hctx
      obtain ⟨htf, hnf⟩ := tame_not hta
      have hgf : GenF f := GenF_not_inv hg
      have hrun : convRun (toTokens (G.not f)) out st = convRun (toTokens f) out ("!" :: st) := by
        simp [toTokens, convRun, convStep_bang out st hctx]
      rw [hrun, ih.1 ⟨hgf, hnf, htf⟩ out ("!" :: st)]
      have hpf : pendF f = [] := pendF_nil hnf
      have houtf : outF f = rpnOf f := by
        have h0 := outF_pendF f
        rwa [hpf, List.append_nil] at h0
      rw [hpf, houtf]
      simp [outF, pendF]
    refine ⟨?_, part2, ?_, ?_⟩
    · rintro ⟨-, hno, -⟩
      simp [isNotG] at hno
    · rintro ⟨hg, hta⟩ out st hctx
      have hgf : GenF (G.not f) := GenT_base_of hg (by intro x y hcon; cases hcon)
      have h0 := part2 ⟨hgf, hta⟩ out st (Or.inl hctx)
      simpa [outT, pendT] using h0
    · rintro ⟨hg, hta⟩ out st hctx
      have hgt : GenT (G.not f) := GenE_base_of hg (by intro x y hcon; cases hcon)
      have hgf : GenF (G.not f) := GenT_base_of hgt (by intro x y hcon; cases hcon)
      have h0 := part2 ⟨hgf, hta⟩ out st (Or.inl (Or.inl hctx))
      simpa [outE, outT, pendE, pendT] using h0
  | paren e ih =>
    have part1 : (GenF (G.paren e) ∧ isNotG (G.paren e) = false ∧ tame (G.paren e) = true) →
        ∀ out st, convRun (toTokens (G.paren e)) out st
          = (out ++ outF (G.paren e), pendF (G.paren e) ++ st) := by
      rintro ⟨hg, -, hta⟩ out st
      have hge : GenE e := GenF_paren_inv hg
      have hte : tame e = true := tame_paren hta
      have h1 : convRun (toTokens (G.paren e)) out st
          = convRun (toTokens e ++ [")"]) out ("(" :: st) := by
        simp [toTokens, convRun, convStep_open]
      rw [h1, convRun_append, ih.2.2.2 ⟨hge, hte⟩ out ("(" :: st) (Or.inr ⟨st, rfl⟩)]
      show convRun [")"] (out ++ outE e) (pendE e ++ "(" :: st)
          = (out ++ outF (G.paren e), pendF (G.paren e) ++ st)
      have h2 : convRun [")"] (out ++ outE e) (pendE e ++ "(" :: st)
          = ((out ++ outE e) ++ pendE e, st) := by
        simp [convRun, convStep_close e]
      rw [h2]
      have h3 : (out ++ outE e) ++ pendE e = out ++ rpnOf e := by
        rw [List.append_assoc, outE_pendE]
      rw [h3]
      simp [outF, pendF, rpnOf]
    refine ⟨part1, ?_, ?_, ?_⟩
    · rintro ⟨hg, hta⟩ out st -
      exact part1 ⟨hg, rfl, hta⟩ out st
    · rintro ⟨hg, hta⟩ out st -
      have hgf : GenF (G.paren e) := GenT_base_of hg (by intro x y hcon; cases hcon)
      have h0 := part1 ⟨hgf, rfl, hta⟩ out st
      simpa [outT, pendT] using h0
    · rintro ⟨hg, hta⟩ out st -
      have hgt : GenT (G.paren e) := GenE_base_of hg (by intro x y hcon; cases hcon)
      have hgf : GenF (G.paren e) := GenT_base_of hgt (by intro x y hcon; cases hcon)
      have h0 := part1 ⟨hgf, rfl, hta⟩ out st
      simpa [outE, outT, pendE, pendT] using h0
  | or a b iha ihb =>
    have part4 : (GenE (G.or a b) ∧ tame (G.or a b) = true) → ∀ out st, exprCtx st →
        convRun (toTokens (G.or a b)) out st
          = (out ++ outE (G.or a b), pendE (G.or a b) ++ st) := by
      rintro ⟨hg, hta⟩ out st hctx
      obtain ⟨hga, hgb⟩ := GenE_or_inv hg
      obtain ⟨hta2, htb⟩ := tame_or hta
      have h1 : toTokens (G.or a b) = toTokens a ++ "|" :: toTokens b := rfl
      rw [h1, convRun_append, iha.2.2.2 ⟨hga, hta2⟩ out st hctx]
      show convRun ("|" :: toTokens b) (out ++ outE a) (pendE a ++ st)
          = (out ++ outE (G.or a b), pendE (G.or a b) ++ st)
      have hs := convStep_bar a (out ++ outE a) st hctx
      have h2 : convRun ("|" :: toTokens b) (out ++ outE a) (pendE a ++ st)
          = convRun (toTokens b) ((out ++ outE a) ++ pendE a) ("|" :: st) := by
        simp [convRun, hs]
      rw [h2, ihb.2.2.1 ⟨hgb, htb⟩ _ _ (Or.inr ⟨st, rfl⟩)]
      have h3 : (out ++ outE a) ++ pendE a = out ++ rpnOf a := by
        rw [List.append_assoc, outE_pendE]
      rw [h3]
      simp [outE, pendE, List.append_assoc]
    refine ⟨?_, ?_, ?_, part4⟩
    · rintro ⟨hg, -, -⟩
      exact (GenF_or_inv hg).elim
    · rintro ⟨hg, -⟩
      exact (GenF_or_inv hg).elim
    · rintro ⟨hg, -⟩
      exact (GenT_or_inv hg).elim
  | and a b iha ihb =>
    have part3 : (GenT (G.and a b) ∧ tame (G.and a b) = true) → ∀ out st, termCtx st →
        convRun (toTokens (G.and a b)) out st
          = (out ++ outT (G.and a b), pendT (G.and a b) ++ st) := by
      rintro ⟨hg, hta⟩ out st hctx
      obtain ⟨hga, hgb⟩ := GenT_and_inv hg
      obtain ⟨hta2, htb⟩ := tame_and hta
      have h1 : toTokens (G.and a b) = toTokens a ++ "&" :: toTokens b := rfl
      rw [h1, convRun_append, iha.2.2.1 ⟨hga, hta2⟩ out st hctx]
      show convRun ("&" :: toTokens b) (out ++ outT a) (pendT a ++ st)
          = (out ++ outT (G.and a b), pendT (G.and a b) ++ st)
      have hs := convStep_amp a (out ++ outT a) st hctx
      have h2 : convRun ("&" :: toTokens b) (out ++ outT a) (pendT a ++ st)
          = convRun (toTokens b) ((out ++ outT a) ++ pendT a) ("&" :: st) := by
        simp [convRun, hs]
      rw [h2, ihb.2.1 ⟨hgb, htb⟩ _ _ (Or.inr ⟨st, rfl⟩)]
      have h3 : (out ++ outT a) ++ pendT a = out ++ rpnOf a := by
        rw [List.append_assoc, outT_pendT]
      rw [h3]
      simp [outT, pendT, List.append_assoc]
    refine ⟨?_, ?_, part3, ?_⟩
    · rintro ⟨hg, -, -⟩
      exact (GenF_and_inv hg).elim
    · rintro ⟨hg, -⟩
      exact (GenF_and_inv hg).elim
    · rintro ⟨hg, hta⟩ out st hctx
      have hgt : GenT (G.and a b) := GenE_base_of hg (by intro x y hcon; cases hcon)
      have h0 := part3 ⟨hgt, hta⟩ out st (Or.inl hctx)
      simpa [outE, pendE] using h0

/-- On the token sequence of a tame expression, `convert2rpn` succeeds
and produces exactly its RPN sequence. -/
theorem convert2rpn_gen {g : G} (hg : GenE g) (ht : tame g = true) :
    convert2rpn (toTokens g) = .ok (rpnOf g) := by
  have h := (conv_spec g).2.2.2 ⟨hg, ht⟩ [] [] (Or.inl rfl)
  rw [convert2rpn_eq, h]
  simp [outE_pendE]

/-- Consuming the RPN sequence of a well-shaped tame derivation pushes
exactly its tree onto the node stack. -/
theorem rpn2treeAux_spec (g : G) (hs : shapeOK g) (ht : tame g = true) :
    ∀ rest ns, rpn2treeAux (rpnOf g ++ rest) ns = rpn2treeAux rest (treeOf g :: ns) := by
  induction g with
  | lit s =>
    intro rest ns
    have hd : s.data ≠ [] ∧ ∀ c ∈ s.data, '0' ≤ c ∧ c ≤ '9' := hs
    have hnop := digit_not_operator hd.2
    have hstoll : stoll s = .ok ((digitsVal s.data : Nat) : Int) := by
      unfold stoll
      rw [if_pos ⟨hd.1, hd.2⟩, if_pos (tame_lit ht)]
    simp only [rpnOf, List.singleton_append, rpn2treeAux, hnop, eq_self_iff_true, if_true,
               hstoll, treeOf]
    rfl
  | not f ih =>
    intro rest ns
    have hsf : shapeOK f := hs
    obtain ⟨htf, -⟩ := tame_not ht
    have h1 : rpnOf (G.not f) ++ rest = rpnOf f ++ ("!" :: rest) := by
      simp [rpnOf]
    rw [h1, ih hsf htf]
    have hop : is_operator "!" = true := by decide
    simp [rpn2treeAux, hop, (by decide : ("!" : String) ≠ "|"),
          (by decide : ("!" : String) ≠ "&"), treeOf]
  | paren e ih =>
    intro rest ns
    have h0 := ih hs (tame_paren ht) rest ns
    simpa [rpnOf, treeOf] using h0
  | or a b iha ihb =>
    intro rest ns
    obtain ⟨hta, htb⟩ := tame_or ht
    have h1 : rpnOf (G.or a b) ++ rest = rpnOf a ++ (rpnOf b ++ ("|" :: rest)) := by
      simp [rpnOf]
    rw [h1, iha hs.1 hta, ihb hs.2 htb]
    have hop : is_operator "|" = true := by decide
    simp [rpn2treeAux, hop, treeOf]
  | and a b iha ihb =>
    intro rest ns
    obtain ⟨hta, htb⟩ := tame_and ht
    have h1 : rpnOf (G.and a b) ++ rest = rpnOf a ++ (rpnOf b ++ ("&" :: rest)) := by
      simp [rpnOf]
    rw [h1, iha hs.1 hta, ihb hs.2 htb]
    have hop : is_operator "&" = true := by decide
    simp [rpn2treeAux, hop, (by decide : ("&" : String) ≠ "|"), treeOf]

/-- On the RPN sequence of a well-shaped tame derivation, `rpn2tree`
succeeds and returns exactly its tree. -/
theorem rpn2tree_gen {g : G} (hs : shapeOK g) (ht : tame g = true) :
    rpn2tree (rpnOf g) = .ok (treeOf g) := by
  have h := rpn2treeAux_spec g hs ht [] []
  rw [List.append_nil] at h
  unfold rpn2tree
  rw [h]
  rfl

theorem opTok_not_lit {t : String} (h1 : isOpTok t) (h2 : isLitTok t) : False := by
  rcases h1 with h | h | h | h | h <;> subst h <;> exact absurd h2.2 (by decide)

theorem GoodToks_append_opcons {xs ts : List String} {t : String}
    (h1 : GoodToks xs) (hop : isOpTok t) (h2 : GoodToks ts) :
    GoodToks (xs ++ t :: ts) := by
  induction h1 with
  | nil => exact GoodToks.op hop h2
  | op hopx hgood ih => exact GoodToks.op hopx ih
  | lit hlit => exact GoodToks.litop hlit hop (GoodToks.op hop h2)
  | litop hlit hopt hgood ih => exact GoodToks.litop hlit hopt ih

theorem goodToks_toTokens (g : G) (hs : shapeOK g) : GoodToks (toTokens g) := by
  induction g with
  | lit s => exact GoodToks.lit hs
  | not f ih => exact GoodToks.op (Or.inr (Or.inr (Or.inl rfl))) (ih hs)
  | paren e ih =>
    have hin : GoodToks (toTokens e ++ [")"]) :=
      GoodToks_append_opcons (ih hs) (Or.inr (Or.inr (Or.inr (Or.inr rfl)))) GoodToks.nil
    exact GoodToks.op (Or.inr (Or.inr (Or.inr (Or.inl rfl)))) hin
  | or a b iha ihb =>
    exact GoodToks_append_opcons (iha hs.1) (Or.inl rfl) (ihb hs.2)
  | and a b iha ihb =>
    exact GoodToks_append_opcons (iha hs.1) (Or.inr (Or.inl rfl)) (ihb hs.2)

theorem mk_data (s : String) : String.mk s.data = s := rfl

/-- Consuming a run of digits appends it to the current literal token. -/
theorem tokChars_digits (d : List Char) (hd : ∀ c ∈ d, '0' ≤ c ∧ c ≤ '9') :
    ∀ cs tokens cur, tokChars (d ++ cs) tokens cur = tokChars cs tokens (cur ++ d) := by
  induction d with
  | nil => intro cs tokens cur; simp
  | cons c d ih =>
    intro cs tokens cur
    have hc := hd c (by simp)
    have hnw : ¬(c = ' ' ∨ c = '\t') := by
      rintro (h | h) <;> subst h <;> revert hc <;> decide
    have hno : ¬(c = '|' ∨ c = '&' ∨ c = '!' ∨ c = '(' ∨ c = ')') := by
      rintro (h | h | h | h | h) <;> subst h <;> revert hc <;> decide
    have hstep : tokChars (c :: d ++ cs) tokens cur = tokChars (d ++ cs) tokens (cur ++ [c]) := by
      simp only [List.cons_append, tokChars]
      rw [if_neg hnw, if_neg hno, if_pos hc]
      rfl
    rw [hstep, ih (fun x hx => hd x (by simp [hx])) cs tokens (cur ++ [c])]
    simp

/-- Consuming an operator token flushes the pending literal and pushes
the operator. -/
theorem tokChars_op_step {t : String} (hop : isOpTok t) :
    ∀ cs tokens cur, tokChars (t.data ++ cs) tokens cur
      = tokChars cs ((if cur = [] then tokens else tokens ++ [String.mk cur]) ++ [t]) [] := by
  rcases hop with h | h | h | h | h <;> subst h <;> intro cs tokens cur <;> rfl

/-- The tokenizer reproduces a good token list from any of its spaced
spellings; the second conjunct handles a pending literal accumulator
when the remaining tokens start with an operator (or are exhausted). -/
theorem tok_spaced {ts : List String} {cs : List Char} (h : Spaced ts cs) :
    (GoodToks ts → ∀ tokens, (tokChars cs tokens []).map finishTokens = .ok (tokens ++ ts))
  ∧ (GoodToks ts → (ts = [] ∨ ∃ t rest, ts = t :: rest ∧ isOpTok t) →
      ∀ tokens cur, cur ≠ [] →
        (tokChars cs tokens cur).map finishTokens = .ok (tokens ++ String.mk cur :: ts)) := by
  induction h with
  | nil =>
    constructor
    · intro hg tokens
      simp [tokChars, finishTokens, Except.map]
    · intro hg hhead tokens cur hcur
      simp [tokChars, finishTokens, Except.map, hcur]
  | @ws c ts cs hws hsp ih =>
    constructor
    · intro hg tokens
      simp only [tokChars]
      rw [if_pos hws]
      exact ih.1 hg tokens
    · intro hg hhead tokens cur hcur
      simp only [tokChars]
      rw [if_pos hws]
      exact ih.2 hg hhead tokens cur hcur
  | @tok t ts cs hsp ih =>
    constructor
    · intro hg tokens
      cases hg with
      | op hop hgood =>
        rw [tokChars_op_step hop]
        simp only [eq_self_iff_true, if_true]
        rw [ih.1 hgood (tokens ++ [t])]
        simp
      | lit hlit =>
        rw [tokChars_digits t.data hlit.2 cs tokens []]
        simp only [List.nil_append]
        rw [ih.2 GoodToks.nil (Or.inl rfl) tokens t.data hlit.1, mk_data]
      | litop hlit hopt hgood =>
        rw [tokChars_digits t.data hlit.2 cs tokens []]
        simp only [List.nil_append]
        rw [ih.2 hgood (Or.inr ⟨_, _, rfl, hopt⟩) tokens t.data hlit.1, mk_data]
    · intro hg hhead tokens cur hcur
      have hopt : isOpTok t := by
        rcases hhead with h0 | ⟨t1, r, heq, hop1⟩
        · exact absurd h0 (by simp)
        · injection heq with h1 h2
          subst h1
          exact hop1
      rw [tokChars_op_step hopt, if_neg hcur]
      have hgood : GoodToks ts := by
        cases hg with
        | op hop hgood => exact hgood
        | lit hlit => exact (opTok_not_lit hopt hlit).elim
        | litop hlit hopt2 hgood => exact (opTok_not_lit hopt hlit).elim
      rw [ih.1 hgood ((tokens ++ [String.mk cur]) ++ [t])]
      simp

/-- The tokenizer maps any spaced spelling of a good token list to
exactly that token list. -/
theorem parse_spaced {ts : List String} (s : String) (hsp : Spaced ts s.data)
    (hg : GoodToks ts) : parse_logic_expression s = .ok ts := by
  have h := (tok_spaced hsp).1 hg []
  simpa [parse_logic_expression] using h

theorem spaced_concat (ts : List String) : Spaced ts (concatData ts) := by
  induction ts with
  | nil => exact Spaced.nil
  | cons t ts ih => exact Spaced.tok ih

theorem concatData_append (xs ys : List String) :
    concatData (xs ++ ys) = concatData xs ++ concatData ys := by
  induction xs with
  | nil => rfl
  | cons t xs ih => simp [concatData, ih]

theorem string_data_append (a b : String) : (a ++ b).data = a.data ++ b.data := rfl

theorem except_bind_ok {ε α β : Type} (a : α) (f : α → Except ε β) :
    (Except.ok a >>= f) = f a := rfl

/-- Master theorem: the full constructor pipeline on any spaced spelling
of a tame grammar expression succeeds and builds exactly its tree. -/
theorem compile_gen {g : G} (s : String) (hg : GenE g) (ht : tame g = true)
    (hsp : Spaced (toTokens g) s.data) : compile s = .ok (treeOf g) := by
  have hs : shapeOK g := (shape_of_gen g).2.2 hg
  have h1 : parse_logic_expression s = .ok (toTokens g) :=
    parse_spaced s hsp (goodToks_toTokens g hs)
  have h2 := convert2rpn_gen hg ht
  have h3 := rpn2tree_gen hs ht
  simp only [compile, h1, except_bind_ok, h2, h3]

theorem data_mk (l : List Char) : (String.mk l).data = l := rfl

theorem noAdjLit_snoc_op {ts : List String} {t : String} (hadj : noAdjLit ts)
    (hop : isOpTok t) : noAdjLit (ts ++ [t]) := by
  unfold noAdjLit at hadj ⊢
  rw [List.chain'_append]
  refine ⟨hadj, List.chain'_singleton _, fun x hx y hy => ?_⟩
  simp only [List.head?_cons, Option.mem_def, Option.some.injEq] at hy
  subst hy
  exact fun hc => opTok_not_lit hop hc.2

theorem noAdjLit_snoc_lit {ts : List String} {t : String} (hadj : noAdjLit ts)
    (hlast : opLast ts) : noAdjLit (ts ++ [t]) := by
  unfold noAdjLit at hadj ⊢
  rw [List.chain'_append]
  refine ⟨hadj, List.chain'_singleton _, fun x hx y hy => ?_⟩
  have hop := hlast x (Option.mem_def.mp hx)
  exact fun hc => opTok_not_lit hop hc.1

theorem opLast_snoc {ts : List String} {t : String} (hop : isOpTok t) :
    opLast (ts ++ [t]) := by
  intro x hx
  rw [List.getLast?_concat] at hx
  injection hx with h
  subst h
  exact hop

theorem isOpTok_mk {c : Char} (h : c = '|' ∨ c = '&' ∨ c = '!' ∨ c = '(' ∨ c = ')') :
    isOpTok (String.mk [c]) := by
  rcases h with h | h | h | h | h <;> subst h
  · exact Or.inl rfl
  · exact Or.inr (Or.inl rfl)
  · exact Or.inr (Or.inr (Or.inl rfl))
  · exact Or.inr (Or.inr (Or.inr (Or.inl rfl)))
  · exact Or.inr (Or.inr (Or.inr (Or.inr rfl)))

/-- State-generalized tokenizer faithfulness over the restricted
alphabet: the loop succeeds, the emitted tokens spell the whitespace-
stripped input, every token is an operator or a digit run, and no two
adjacent tokens are both digit runs. -/
theorem c10_aux (cs : List Char) :
    ∀ tokens cur,
      (∀ c ∈ cs, allowedChar c) →
      (∀ c ∈ cur, '0' ≤ c ∧ c ≤ '9') →
      (∀ t ∈ tokens, isOpTok t ∨ isLitTok t) →
      noAdjLit tokens →
      opLast tokens →
      ∃ ts, (tokChars cs tokens cur).map finishTokens = .ok ts
        ∧ concatData ts
            = concatData tokens ++ cur ++ cs.filter (fun c => !(c == ' ' || c == '\t'))
        ∧ (∀ t ∈ ts, isOpTok t ∨ isLitTok t)
        ∧ noAdjLit ts := by
  induction cs with
  | nil =>
    intro tokens cur hall hcur htoks hadj hlast
    by_cases hc : cur = []
    · subst hc
      exact ⟨tokens, by simp [tokChars, finishTokens, Except.map], by simp, htoks, hadj⟩
    · refine ⟨tokens ++ [String.mk cur], ?_, ?_, ?_, noAdjLit_snoc_lit hadj hlast⟩
      · simp [tokChars, finishTokens, Except.map, hc]
      · simp [concatData_append, concatData, data_mk]
      · intro t ht
        rcases List.mem_append.mp ht with ht | ht
        · exact htoks t ht
        · simp only [List.mem_singleton] at ht
          subst ht
          exact Or.inr ⟨by simpa [data_mk] using hc, by simpa [data_mk] using hcur⟩
  | cons c cs ih =>
    intro tokens cur hall hcur htoks hadj hlast
    have hall' : ∀ x ∈ cs, allowedChar x := fun x hx => hall x (by simp [hx])
    have hc := hall c (by simp)
    by_cases hws : c = ' ' ∨ c = '\t'
    · have hstep : tokChars (c :: cs) tokens cur = tokChars cs tokens cur := by
        simp only [tokChars]
        rw [if_pos hws]
      have hfil : List.filter (fun c => !(c == ' ' || c == '\t')) (c :: cs)
          = List.filter (fun c => !(c == ' ' || c == '\t')) cs := by
        rcases hws with h | h <;> subst h <;> simp [List.filter_cons]
      obtain ⟨ts, h1, h2, h3, h4⟩ := ih tokens cur hall' hcur htoks hadj hlast
      refine ⟨ts, ?_, ?_, h3, h4⟩
      · rw [hstep]; exact h1
      · rw [h2, hfil]
    · have hnws1 : c ≠ ' ' := fun h => hws (Or.inl h)
      have hnws2 : c ≠ '\t' := fun h => hws (Or.inr h)
      have hkeep : (fun c => !(c == ' ' || c == '\t')) c = true := by
        simp [hnws1, hnws2]
      have hfil : List.filter (fun c => !(c == ' ' || c == '\t')) (c :: cs)
          = c :: List.filter (fun c => !(c == ' ' || c == '\t')) cs := by
        rw [List.filter_cons, if_pos hkeep]
      by_cases hop5 : c = '|' ∨ c = '&' ∨ c = '!' ∨ c = '(' ∨ c = ')'
      · have hstep : tokChars (c :: cs) tokens cur
            = tokChars cs ((if cur = [] then tokens else tokens ++ [String.mk cur])
                ++ [String.mk [c]]) [] := by
          simp only [tokChars]
          rw [if_neg hws, if_pos hop5]
        have hopmk : isOpTok (String.mk [c]) := isOpTok_mk hop5
        by_cases hq : cur = []
        · have hstep2 : tokChars (c :: cs) tokens cur
              = tokChars cs (tokens ++ [String.mk [c]]) [] := by
            rw [hstep, if_pos hq]
          have htoks' : ∀ t ∈ tokens ++ [String.mk [c]], isOpTok t ∨ isLitTok t := by
            intro t ht
            rcases List.mem_append.mp ht with ht | ht
            · exact htoks t ht
            · simp only [List.mem_singleton] at ht
              subst ht
              exact Or.inl hopmk
          obtain ⟨ts, h1, h2, h3, h4⟩ := ih (tokens ++ [String.mk [c]]) [] hall' (by simp)
            htoks' (noAdjLit_snoc_op hadj hopmk) (opLast_snoc hopmk)
          refine ⟨ts, ?_, ?_, h3, h4⟩
          · rw [hstep2]; exact h1
          · rw [h2, hfil, hq]
            simp [concatData_append, concatData, data_mk]
        · have hstep2 : tokChars (c :: cs) tokens cur
              = tokChars cs ((tokens ++ [String.mk cur]) ++ [String.mk [c]]) [] := by
            rw [hstep, if_neg hq]
          have hlit : isLitTok (String.mk cur) :=
            ⟨by simpa [data_mk] using hq, by simpa [data_mk] using hcur⟩
          have htoks' : ∀ t ∈ (tokens ++ [String.mk cur]) ++ [String.mk [c]],
              isOpTok t ∨ isLitTok t := by
            intro t ht
            rcases List.mem_append.mp ht with ht | ht
            · rcases List.mem_append.mp ht with ht | ht
              · exact htoks t ht
              · simp only [List.mem_singleton] at ht
                subst ht
                exact Or.inr hlit
            · simp only [List.mem_singleton] at ht
              subst ht
              exact Or.inl hopmk
          obtain ⟨ts, h1, h2, h3, h4⟩ := ih ((tokens ++ [String.mk cur]) ++ [String.mk [c]]) []
            hall' (by simp) htoks'
            (noAdjLit_snoc_op (noAdjLit_snoc_lit hadj hlast) hopmk) (opLast_snoc hopmk)
          refine ⟨ts, ?_, ?_, h3, h4⟩
          · rw [hstep2]; exact h1
          · rw [h2, hfil]
            simp [concatData_append, concatData, data_mk]
      · have hdig : '0' ≤ c ∧ c ≤ '9' := by
          rcases hc with h | h | h | h | h | h | h | h
          · exact absurd (Or.inl h) hws
          · exact absurd (Or.inr h) hws
          · exact absurd (Or.inl h) hop5
          · exact absurd (Or.inr (Or.inl h)) hop5
          · exact absurd (Or.inr (Or.inr (Or.inl h))) hop5
          · exact absurd (Or.inr (Or.inr (Or.inr (Or.inl h)))) hop5
          · exact absurd (Or.inr (Or.inr (Or.inr (Or.inr h)))) hop5
          · exact h
        have hstep : tokChars (c :: cs) tokens cur = tokChars cs tokens (cur ++ [c]) := by
          simp only [tokChars]
          rw [if_neg hws, if_neg hop5, if_pos hdig]
        have hcur' : ∀ x ∈ cur ++ [c], '0' ≤ x ∧ x ≤ '9' := by
          intro x hx
          rcases List.mem_append.mp hx with hx | hx
          · exact hcur x hx
          · simp only [List.mem_singleton] at hx
            subst hx
            exact hdig
        obtain ⟨ts, h1, h2, h3, h4⟩ := ih tokens (cur ++ [c]) hall' hcur' htoks hadj hlast
        refine ⟨ts, ?_, ?_, h3, h4⟩
        · rw [hstep]; exact h1
        · rw [h2, hfil]
          simp

/-- C3 counterexample: `"!!1"` is generated by the grammar
(`factor := '!' factor` twice over the literal `1`), yet construction
fails — its postfix form `["!","1","!"]` pops an empty node stack
(undefined behaviour in the source), so no predicate object is built. -/
theorem c3_counterexample :
    (∃ g : G, GenE g ∧ strOf g = "!!1")
    ∧ compile "!!1" = .error CompileErr.emptyStackTop := by
  refine ⟨⟨G.not (G.not (G.lit "1")), ?_, rfl⟩, by decide⟩
  exact GenE.base (GenT.base (GenF.not (GenF.not (GenF.lit (by decide) (by decide)))))

/-- C3 amended: construction succeeds for every string spelled (with
arbitrary spaces and tabs between tokens) from a grammar expression in
which no `!` is applied directly to another `!`-factor and every
literal value fits in `long long`. -/
theorem c3_amended (g : G) (s : String) (hg : GenE g) (ht : tame g = true)
    (hsp : Spaced (toTokens g) s.data) : ∃ t, compile s = .ok t :=
  ⟨treeOf g, compile_gen s hg ht hsp⟩

/-- Witness for the amended C3 at the spaced input "1|2 & 3". -/
theorem c3_amended_witness : ∃ t, compile "1|2 & 3" = .ok t :=
  c3_amended (G.or (G.lit "1") (G.and (G.lit "2") (G.lit "3"))) "1|2 & 3"
    (GenE.or (GenE.base (GenT.base (GenF.lit (by decide) (by decide))))
      (GenT.and (GenT.base (GenF.lit (by decide) (by decide)))
        (GenF.lit (by decide) (by decide))))
    (by decide)
    (Spaced.tok (Spaced.tok (Spaced.tok (Spaced.ws (Or.inl rfl)
      (Spaced.tok (Spaced.ws (Or.inl rfl) (Spaced.tok Spaced.nil)))))))

/-- C6 counterexample: with the well-formed sub-expressions A = `1|2`
and B = `3`, the textual substitutions give `"!(A&B)"` = `"!(1|2&3)"`
and `"!A|!B"` = `"!1|2|!3"`, and on the label collection `[1]` the
first checks false while the second checks true — the claimed equality
fails because substitution does not respect precedence. -/
theorem c6_counterexample :
    (∃ gA : G, GenE gA ∧ strOf gA = "1|2")
    ∧ (∃ gB : G, GenE gB ∧ strOf gB = "3")
    ∧ (compile "!(1|2&3)").map (fun t => t.check [1])
        ≠ (compile "!1|2|!3").map (fun t => t.check [1]) := by
  refine ⟨⟨G.or (G.lit "1") (G.lit "2"), ?_, rfl⟩,
          ⟨G.lit "3", ?_, rfl⟩, by decide⟩
  · exact GenE.or (GenE.base (GenT.base (GenF.lit (by decide) (by decide))))
      (GenT.base (GenF.lit (by decide) (by decide)))
  · exact GenE.base (GenT.base (GenF.lit (by decide) (by decide)))

theorem demL_data (A B : G) :
    ("!((" ++ strOf A ++ ")&(" ++ strOf B ++ "))").data
      = concatData (toTokens (G.not (G.paren (G.and (G.paren A) (G.paren B))))) := by
  have e1 : ("!((" : String).data = ['!', '(', '('] := rfl
  have e2 : (")&(" : String).data = [')', '&', '('] := rfl
  have e3 : ("))" : String).data = [')', ')'] := rfl
  have e4 : ("!" : String).data = ['!'] := rfl
  have e5 : ("(" : String).data = ['('] := rfl
  have e6 : (")" : String).data = [')'] := rfl
  have e7 : ("&" : String).data = ['&'] := rfl
  simp [string_data_append, strOf, data_mk, toTokens, concatData, concatData_append,
        e1, e2, e3, e4, e5, e6, e7]

theorem demR_data (A B : G) :
    ("!(" ++ strOf A ++ ")|!(" ++ strOf B ++ ")").data
      = concatData (toTokens (G.or (G.not (G.paren A)) (G.not (G.paren B)))) := by
  have e1 : ("!(" : String).data = ['!', '('] := rfl
  have e2 : (")|!(" : String).data = [')', '|', '!', '('] := rfl
  have e4 : ("!" : String).data = ['!'] := rfl
  have e5 : ("(" : String).data = ['('] := rfl
  have e6 : (")" : String).data = [')'] := rfl
  have e7 : ("|" : String).data = ['|'] := rfl
  simp [string_data_append, strOf, data_mk, toTokens, concatData, concatData_append,
        e1, e2, e4, e5, e6, e7]

/-- C6 amended: De Morgan holds once the substituted sub-expressions
are parenthesized so that substitution respects precedence — for all
grammar expressions A and B (tame, as in the amended C3) and every
label collection L, compiling `"!((A)&(B))"` and `"!(A)|!(B)"` gives
trees whose checks agree on L. -/
theorem c6_amended (A B : G) (hA : GenE A) (hB : GenE B)
    (htA : tame A = true) (htB : tame B = true) (L : List Int) :
    (compile ("!((" ++ strOf A ++ ")&(" ++ strOf B ++ "))")).map (fun t => t.check L)
      = (compile ("!(" ++ strOf A ++ ")|!(" ++ strOf B ++ ")")).map (fun t => t.check L) := by
  have hgL : GenE (G.not (G.paren (G.and (G.paren A) (G.paren B)))) :=
    GenE.base (GenT.base (GenF.not (GenF.paren
      (GenE.base (GenT.and (GenT.base (GenF.paren hA)) (GenF.paren hB))))))
  have hgR : GenE (G.or (G.not (G.paren A)) (G.not (G.paren B))) :=
    GenE.or (GenE.base (GenT.base (GenF.not (GenF.paren hA))))
      (GenT.base (GenF.not (GenF.paren hB)))
  have htL : tame (G.not (G.paren (G.and (G.paren A) (G.paren B)))) = true := by
    simp [tame, isNotG, htA, htB]
  have htR : tame (G.or (G.not (G.paren A)) (G.not (G.paren B))) = true := by
    simp [tame, isNotG, htA, htB]
  have hcL : compile ("!((" ++ strOf A ++ ")&(" ++ strOf B ++ "))")
      = .ok (Node.NotNode (Node.AndNode (treeOf A) (treeOf B))) := by
    have h := compile_gen ("!((" ++ strOf A ++ ")&(" ++ strOf B ++ "))") hgL htL
      (by rw [demL_data]; exact spaced_concat _)
    simpa [treeOf] using h
  have hcR : compile ("!(" ++ strOf A ++ ")|!(" ++ strOf B ++ ")")
      = .ok (Node.OrNode (Node.NotNode (treeOf A)) (Node.NotNode (treeOf B))) := by
    have h := compile_gen ("!(" ++ strOf A ++ ")|!(" ++ strOf B ++ ")") hgR htR
      (by rw [demR_data]; exact spaced_concat _)
    simpa [treeOf] using h
  rw [hcL, hcR]
  simp only [Except.map]
  cases h1 : Node.check (treeOf A) L <;> cases h2 : Node.check (treeOf B) L <;>
    simp [Node.check, h1, h2]

/-- Witness for the amended C6 at A = `1`, B = `2`, L = `[1]`. -/
theorem c6_amended_witness :
    (compile ("!((" ++ strOf (G.lit "1") ++ ")&(" ++ strOf (G.lit "2") ++ "))")).map
        (fun t => t.check [1])
      = (compile ("!(" ++ strOf (G.lit "1") ++ ")|!(" ++ strOf (G.lit "2") ++ ")")).map
        (fun t => t.check [1]) :=
  c6_amended (G.lit "1") (G.lit "2")
    (GenE.base (GenT.base (GenF.lit (by decide) (by decide))))
    (GenE.base (GenT.base (GenF.lit (by decide) (by decide))))
    (by decide) (by decide) [1]

/-- C10: tokenizer faithfulness — on any input over spaces, tabs, the
five operator / parenthesis characters and decimal digits, the
tokenizer succeeds, the concatenation of the produced tokens equals the
input with spaces and tabs removed, every token is a single operator
character or a nonempty digit run, and no two adjacent tokens are both
digit runs (each digit-run token is a maximal run of the stripped
input). -/
theorem c10_tokenizer_faithful (s : String) (h : ∀ c ∈ s.data, allowedChar c) :
    ∃ ts, parse_logic_expression s = .ok ts
      ∧ concatData ts = s.data.filter (fun c => !(c == ' ' || c == '\t'))
      ∧ (∀ t ∈ ts, isOpTok t ∨ isLitTok t)
      ∧ noAdjLit ts := by
  obtain ⟨ts, h1, h2, h3, h4⟩ :=
    c10_aux s.data [] [] h (by simp) (by simp) List.chain'_nil (fun t ht => by simp at ht)
  exact ⟨ts, by simpa [parse_logic_expression] using h1,
         by simpa [concatData] using h2, h3, h4⟩

/-- Witness for C10 at the input "12|( 3 )&!45". -/
theorem c10_witness :
    ∃ ts, parse_logic_expression "12|( 3 )&!45" = .ok ts
      ∧ concatData ts
          = ("12|( 3 )&!45" : String).data.filter (fun c => !(c == ' ' || c == '\t'))
      ∧ (∀ t ∈ ts, isOpTok t ∨ isLitTok t)
      ∧ noAdjLit ts :=
  c10_tokenizer_faithful "12|( 3 )&!45" (by decide)
